import Mathlib

/-!
Verification of the single-pass BF-to-LLVM compiler front end in `src/main.py`.

The development shallowly embeds `compile_bf` and its execution model:

* the compile-time scan (the `for ch in prog` loop) becomes a step function on an
  explicit compiler state holding the list of created basic blocks, the block
  stack, the loop stack and the line/column counters;
* the LLVM IR emitted for each BF instruction character is represented by one
  composite operation per character (the builder calls for one character are
  folded into a single atomic unit that preserves their data flow), and the
  `icmp ne 0` + `cbranch` pair emitted at brackets becomes a conditional
  terminator that tests the current cell against zero;
* execution of the emitted module is a fuel-indexed interpreter over the blocks,
  with the `getc`/`putc` ctypes thunks modelled as operations on explicit input
  and output byte streams; the source's `getc` returns a `str` that its
  `c_int8` thunk signature cannot convert, so the faithful bridge delivers no
  defined byte, and a separate spec-modelled bridge captures the intended
  contract.

Machine integers are embedded as `Nat` with explicit wraparound: i8 arithmetic
is mod 256, i32 arithmetic is mod 2^32, and the index mask is a genuine bitwise
AND with `MEMORY_SIZE - 1`.
-/

namespace LlvmBf

/-- src/main.py line 24: `MEMORY_SIZE = 1 << 16`. -/
def MEMORY_SIZE : Nat := 1 <<< 16

/-- src/main.py line 33: `MEMORY_MASK_i32 = ll.Constant(i32, MEMORY_SIZE - 1)`. -/
def MEMORY_MASK : Nat := MEMORY_SIZE - 1

/-- The modulus of 32-bit machine arithmetic: the `index` global is an i32, so
`builder.add`/`builder.sub` on it wrap modulo `2^32`. -/
def I32_MOD : Nat := 4294967296

/-- The modulus of 8-bit machine arithmetic: memory cells are i8, so
`builder.add`/`builder.sub` on a cell wrap modulo `2^8`. -/
def I8_MOD : Nat := 256

/-- One composite operation emitted into the current basic block for a single BF
instruction character by `compile_bf` (src/main.py lines 99-135).  Each variant
stands for the exact llvmlite builder sequence emitted for that character:

* `output` (`'.'`): `ptr = &memory[0][load index]; value = load ptr; call putc(value)`;
* `input` (`','`): `res = call getc(); ptr = &memory[0][load index]; store res, ptr`;
* `moveRight` (`'>'`): `i = load index; i = add i, 1; i = and i, MEMORY_MASK; store i, index`;
* `moveLeft` (`'<'`): same with `sub i, 1`;
* `increment` (`'+'`): `ptr = &memory[0][load index]; v = load ptr; v = add v, 1; store v, ptr`;
* `decrement` (`'-'`): same with `sub v, 1`. -/
inductive Op where
  | output
  | input
  | moveRight
  | moveLeft
  | increment
  | decrement
deriving DecidableEq

/-- A basic-block terminator.  `cbr nonzeroTarget zeroTarget` models the
`value = load &memory[0][load index]; nonzero = icmp ne value, 0;
cbranch nonzero, nonzeroTarget, zeroTarget` sequence emitted at `'['`
(src/main.py lines 143-146) and `']'` (lines 161-164); `ret` models the final
`builder.ret_void()` (line 178). -/
inductive BTerm where
  | cbr (nonzeroTarget zeroTarget : Nat)
  | ret
deriving DecidableEq

/-- A basic block of the function under construction.  Blocks are identified by
their position in `BfState.blocks` (creation order, as `func.append_basic_block`
appends them).  `terms` collects every terminator emitted into the block, in
order; llvmlite's builder appends instructions unconditionally, so a block with
zero or several terminators would simply be malformed IR rather than an error. -/
structure BasicBlock where
  ops : List Op
  terms : List BTerm
deriving DecidableEq

/-- A fresh block as returned by `func.append_basic_block`. -/
def BasicBlock.empty : BasicBlock := ⟨[], []⟩

instance : Inhabited BasicBlock := ⟨BasicBlock.empty⟩

/-- The errors `compile_bf` can raise during the scan and the final check:
`unmatchedClose line col` is `ValueError('{}:{}: unmatched ]')` (line 158),
`unmatchedOpen line col` is `ValueError('{}:{}: unmatched [')` (line 175), and
`indexError` is the `IndexError` Python would raise on `block_stack.pop()` /
`loop_stack[-1]` with an empty list (unreachable from the initial state). -/
inductive CompileError where
  | unmatchedClose (line col : Nat)
  | unmatchedOpen (line col : Nat)
  | indexError
deriving DecidableEq

/-- The state of the `compile_bf` scan: the blocks created so far (block ids are
positions in this list), `block_stack` and `loop_stack` with the TOP of each
stack at the HEAD of the list (Python keeps the top at the end), and the
line/column counters.  The builder's insertion point is always the top of
`blockStack`, exactly as maintained by `builder.position_at_end(block_stack[-1])`. -/
structure BfState where
  blocks : List BasicBlock
  blockStack : List Nat
  loopStack : List Nat
  line : Nat
  col : Nat
deriving DecidableEq

/-- Replace the element at position `i` by `f` of it; out-of-range positions
leave the list unchanged. -/
def updateAt (i : Nat) (f : BasicBlock → BasicBlock) : List BasicBlock → List BasicBlock
  | [] => []
  | b :: bs =>
    match i with
    | 0 => f b :: bs
    | j + 1 => b :: updateAt j f bs

/-- Emit a terminator at the end of block `i`. -/
def addTerm (blocks : List BasicBlock) (i : Nat) (t : BTerm) : List BasicBlock :=
  updateAt i (fun b => { b with terms := b.terms ++ [t] }) blocks

/-- Emit a composite operation into the current block (the builder's insertion
point, i.e. the top of `blockStack`).  The empty-stack case is unreachable from
the initial state; the state is returned unchanged there. -/
def emitOp (st : BfState) (op : Op) : BfState :=
  match st.blockStack with
  | cur :: _ =>
    { st with blocks := updateAt cur (fun b => { b with ops := b.ops ++ [op] }) st.blocks }
  | [] => st

/-- One iteration of the `for ch in prog` loop of `compile_bf` (src/main.py
lines 93-172).  `col` is incremented first (line 94); then the character is
dispatched through the `elif` chain.  Unrecognized characters fall through to
`continue` (lines 171-172). -/
def step (st0 : BfState) (ch : Char) : Except CompileError BfState :=
  let st := { st0 with col := st0.col + 1 }
  if ch = '\n' then
    .ok { st with col := 1, line := st.line + 1 }
  else if ch = '.' then
    .ok (emitOp st .output)
  else if ch = ',' then
    .ok (emitOp st .input)
  else if ch = '>' then
    .ok (emitOp st .moveRight)
  else if ch = '<' then
    .ok (emitOp st .moveLeft)
  else if ch = '+' then
    .ok (emitOp st .increment)
  else if ch = '-' then
    .ok (emitOp st .decrement)
  else if ch = '[' then
    let loopB := st.blocks.length
    let tailB := st.blocks.length + 1
    let blocks := st.blocks ++ [BasicBlock.empty, BasicBlock.empty]
    match st.blockStack with
    | cur :: rest =>
      .ok { st with
        blocks := addTerm blocks cur (.cbr loopB tailB),
        blockStack := loopB :: tailB :: rest,
        loopStack := loopB :: st.loopStack }
    | [] => .error .indexError
  else if ch = ']' then
    if st.blockStack.length ≤ 1 then
      .error (.unmatchedClose st.line st.col)
    else
      match st.blockStack, st.loopStack with
      | cur :: tailB :: rest, l :: ls =>
        .ok { st with
          blocks := addTerm st.blocks cur (.cbr l tailB),
          blockStack := tailB :: rest,
          loopStack := ls }
      | _, _ => .error .indexError
  else
    .ok st

/-- The scan loop itself: fold `step` over the remaining program text, stopping
at the first error (a raised `ValueError` aborts the Python loop). -/
def scanFrom (st : BfState) : List Char → Except CompileError BfState
  | [] => .ok st
  | ch :: rest =>
    match step st ch with
    | .ok st' => scanFrom st' rest
    | .error e => .error e

/-- The initial scan state (src/main.py lines 79-92): one `entry` block (id 0),
`block_stack = [entry]`, `loop_stack = []`, `line = 1`, `col = 1`. -/
def initState : BfState := ⟨[BasicBlock.empty], [0], [], 1, 1⟩

/-- Run the whole scan from the initial state. -/
def scan (prog : List Char) : Except CompileError BfState := scanFrom initState prog

/-- The compiled module: the finished list of basic blocks of `bfmain`
(the `memory` and `index` globals are fixed and carried by the execution
state instead). -/
structure BfModule where
  blocks : List BasicBlock
deriving DecidableEq

/-- The end of `compile_bf` (src/main.py lines 174-178): if the block stack does
not have exactly one element left, raise `unmatched [` at the current position;
otherwise emit `ret void` at the single remaining block. -/
def finalize (st : BfState) : Except CompileError BfModule :=
  match st.blockStack with
  | [cur] => .ok ⟨addTerm st.blocks cur .ret⟩
  | _ => .error (.unmatchedOpen st.line st.col)

/-- `compile_bf` (src/main.py lines 51-183): scan the program, then finish the
function. -/
def compile_bf (prog : List Char) : Except CompileError BfModule :=
  match scan prog with
  | .ok st => finalize st
  | .error e => .error e

/-- The set of recognized instruction characters (spec section 6); everything
else, including newlines, is a comment. -/
def isInstrChar (ch : Char) : Bool :=
  ch = '>' || ch = '<' || ch = '+' || ch = '-' || ch = '.' || ch = ',' || ch = '[' || ch = ']'

/-- Bracket-nesting depth tracking: processes the program from a given open-loop
depth, failing on a close bracket at depth 0 and returning the final depth.
This is the specification-side notion used to say when a program is
bracket-balanced. -/
def scanDepth : List Char → Nat → Option Nat
  | [], d => some d
  | ch :: rest, d =>
    if ch = '[' then scanDepth rest (d + 1)
    else if ch = ']' then
      match d with
      | 0 => none
      | d' + 1 => scanDepth rest d'
    else scanDepth rest d

/-- A program has balanced brackets when the depth scan starts and ends at 0
without ever closing an unopened loop. -/
def balanced (prog : List Char) : Bool := scanDepth prog 0 == some 0

/-! ## Execution model of the emitted module -/

/-- The runtime state of the compiled program: the `memory` global (an i8 array;
only indices below `MEMORY_SIZE` are ever addressed), the `index` global (i32),
and the host input/output byte streams reached through the `getc`/`putc`
thunks. -/
structure ExecState where
  mem : Nat → Nat
  index : Nat
  input : List Nat
  output : List Nat

/-- Pointwise update of the memory array (the effect of `store v, &memory[0][i]`). -/
def updMem (m : Nat → Nat) (i v : Nat) : Nat → Nat :=
  fun j => if j = i then v else m j

/-- The new index value stored by `'>'`: `add i32` wraps modulo `2^32`, then the
result is masked with `MEMORY_MASK` (src/main.py lines 111-114). -/
def advanceRight (i : Nat) : Nat := ((i + 1) % I32_MOD) &&& MEMORY_MASK

/-- The new index value stored by `'<'`: `sub i32 i, 1` is `i + 2^32 - 1` modulo
`2^32` in two's complement, then the result is masked (lines 118-121). -/
def advanceLeft (i : Nat) : Nat := ((i + (I32_MOD - 1)) % I32_MOD) &&& MEMORY_MASK

/-- `getc` (src/main.py lines 36-37) seen through its `CFUNCTYPE(c_int8)` thunk
(line 48).  `sys.stdin.read(1)` returns a `str` — one character, or the empty
string at end of stream — and ctypes cannot convert a `str` callback result to
`c_int8`: the result conversion raises `TypeError` inside the callback, the
exception is swallowed (printed to stderr), and the value the JIT-compiled
caller receives is undefined.  The model therefore has no defined result in
either case: the bridge never delivers a defined byte. -/
def getc : List Nat → Option (Nat × List Nat)
  | _ => none

/-- `c_int8` reinterpretation of an i8 byte: values 128..255 become negative. -/
def toSigned8 (b : Nat) : Int := if b % 256 < 128 then (b % 256 : Nat) else (b % 256 : Nat) - 256

/-- `putc` (src/main.py lines 40-42): `sys.stdout.write(chr(c & 0x7f))` followed
by `sys.stdout.flush()`.  The argument is the `c_int8` the thunk passes in.
Python's `&` uses the infinite two's-complement representation of the left
operand, so `c & 0x7f` is exactly `c` floor-mod `2^7`; the write-plus-flush pair
appends that single character to the (unbuffered) output stream atomically. -/
def putc (c : Int) (out : List Nat) : List Nat := out ++ [(c % 128).toNat]

/-- Execute one emitted composite operation (see `Op`) on the runtime state. -/
def execOp (s : ExecState) : Op → Option ExecState
  | .output => some { s with output := putc (toSigned8 (s.mem s.index)) s.output }
  | .input =>
    match getc s.input with
    | none => none
    | some (b, rest) => some { s with mem := updMem s.mem s.index b, input := rest }
  | .moveRight => some { s with index := advanceRight s.index }
  | .moveLeft => some { s with index := advanceLeft s.index }
  | .increment => some { s with mem := updMem s.mem s.index ((s.mem s.index + 1) % I8_MOD) }
  | .decrement => some { s with mem := updMem s.mem s.index ((s.mem s.index + (I8_MOD - 1)) % I8_MOD) }

/-- Execute the straight-line operations of a block in order. -/
def execOps (s : ExecState) : List Op → Option ExecState
  | [] => some s
  | op :: ops =>
    match execOp s op with
    | some s' => execOps s' ops
    | none => none

/-- Fuel-indexed execution of the compiled function starting at block `bid`:
run the block's operations, then follow its terminator — `cbr` tests whether
the current cell is nonzero (the `icmp ne 0` emitted just before the branch),
`ret` stops.  Fuel bounds the number of block transitions; `none` means the
fuel ran out or an undefined situation (missing block, missing terminator, an
undefined `getc` result) was reached. -/
def run (m : BfModule) : Nat → Nat → ExecState → Option ExecState
  | 0, _, _ => none
  | fuel + 1, bid, s =>
    match m.blocks[bid]? with
    | none => none
    | some bb =>
      match execOps s bb.ops with
      | none => none
      | some s' =>
        match bb.terms.head? with
        | some BTerm.ret => some s'
        | some (BTerm.cbr a b) => run m fuel (if s'.mem s'.index ≠ 0 then a else b) s'
        | none => none

/-- The initial runtime state: `memory` and `index` are zero-initialized
(src/main.py lines 67-68), output is empty, and the host input stream is given. -/
def initExec (input : List Nat) : ExecState := ⟨fun _ => 0, 0, input, []⟩

/-- Modelled from the spec: the I/O-bridge contract of section 4.3,
`getc() -> byte`, reads one byte from the host's input stream and delivers it
across the foreign-call boundary (as the `c_int8` the thunk's signature
declares).  This is what the source intends but does not implement: its `getc`
returns the read `str` itself, which the `c_int8` result conversion rejects
(see `getc`). -/
def getcSpec : List Nat → Option (Nat × List Nat)
  | [] => none
  | b :: rest => some (b % 256, rest)

/-- `execOp` with the spec's intended `getc` bridge (`getcSpec`) in place of
the broken one; every other operation is exactly `execOp`. -/
def execOpSpec (s : ExecState) : Op → Option ExecState
  | .input =>
    match getcSpec s.input with
    | none => none
    | some (b, rest) => some { s with mem := updMem s.mem s.index b, input := rest }
  | op => execOp s op

/-- `execOps` over `execOpSpec`. -/
def execOpsSpec (s : ExecState) : List Op → Option ExecState
  | [] => some s
  | op :: ops =>
    match execOpSpec s op with
    | some s' => execOpsSpec s' ops
    | none => none

/-- `run` over `execOpsSpec`: execution of the compiled module under the
spec's intended input bridge. -/
def runSpec (m : BfModule) : Nat → Nat → ExecState → Option ExecState
  | 0, _, _ => none
  | fuel + 1, bid, s =>
    match m.blocks[bid]? with
    | none => none
    | some bb =>
      match execOpsSpec s bb.ops with
      | none => none
      | some s' =>
        match bb.terms.head? with
        | some BTerm.ret => some s'
        | some (BTerm.cbr a b) => runSpec m fuel (if s'.mem s'.index ≠ 0 then a else b) s'
        | none => none

/-- Two compile errors are of the same kind when they are the same constructor,
positions aside. -/
def sameKind : CompileError → CompileError → Prop
  | .unmatchedClose _ _, .unmatchedClose _ _ => True
  | .unmatchedOpen _ _, .unmatchedOpen _ _ => True
  | .indexError, .indexError => True
  | _, _ => False

/-- Equivalence of whole compilation results: identical modules, or errors of
the same kind (only the reported line/column may differ). -/
def resultEqv : Except CompileError BfModule → Except CompileError BfModule → Prop
  | .ok m, .ok m' => m = m'
  | .error e, .error e' => sameKind e e'
  | _, _ => False

/-- Equivalence of scan states up to diagnostics: the same blocks and stacks,
with arbitrary line/column counters. -/
def stEqv (s s' : BfState) : Prop :=
  s.blocks = s'.blocks ∧ s.blockStack = s'.blockStack ∧ s.loopStack = s'.loopStack

/-- The scan state reached after processing a single `'['`: the entry block is
closed by a conditional branch to the two fresh blocks, which now form the
stack together, and the loop stack holds the loop header. -/
def stateAfterOpenBracket : BfState :=
  ⟨[⟨[], [BTerm.cbr 1 2]⟩, BasicBlock.empty, BasicBlock.empty], [1, 2], [1], 1, 2⟩

/-! ## Basic lemmas about block updates -/

theorem length_updateAt (i : Nat) (f : BasicBlock → BasicBlock) (l : List BasicBlock) :
    (updateAt i f l).length = l.length := by
  induction l generalizing i with
  | nil => cases i <;> rfl
  | cons b bs ih =>
    cases i with
    | zero => rfl
    | succ j => simpa [updateAt] using ih j

theorem updateAt_getElem?_self (i : Nat) (f : BasicBlock → BasicBlock) (l : List BasicBlock) :
    (updateAt i f l)[i]? = (l[i]?).map f := by
  induction l generalizing i with
  | nil => simp [updateAt]
  | cons b bs ih =>
    cases i with
    | zero => simp [updateAt]
    | succ j => simpa [updateAt] using ih j

theorem updateAt_getElem?_ne (i j : Nat) (f : BasicBlock → BasicBlock) (l : List BasicBlock)
    (h : i ≠ j) : (updateAt i f l)[j]? = l[j]? := by
  induction l generalizing i j with
  | nil => cases i <;> rfl
  | cons b bs ih =>
    cases i with
    | zero =>
      cases j with
      | zero => exact absurd rfl h
      | succ j' => simp [updateAt]
    | succ i' =>
      cases j with
      | zero => simp [updateAt]
      | succ j' =>
        simpa [updateAt] using ih i' j' (fun hh => h (by rw [hh]))

theorem length_addTerm (blocks : List BasicBlock) (i : Nat) (t : BTerm) :
    (addTerm blocks i t).length = blocks.length := length_updateAt ..

/-! ## Reduction lemmas for `step`, one per instruction character -/

theorem step_newline (st : BfState) :
    step st '\n' = .ok { st with col := 1, line := st.line + 1 } := rfl

theorem step_dot (st : BfState) :
    step st '.' = .ok (emitOp { st with col := st.col + 1 } .output) := rfl

theorem step_comma (st : BfState) :
    step st ',' = .ok (emitOp { st with col := st.col + 1 } .input) := rfl

theorem step_right (st : BfState) :
    step st '>' = .ok (emitOp { st with col := st.col + 1 } .moveRight) := rfl

theorem step_left (st : BfState) :
    step st '<' = .ok (emitOp { st with col := st.col + 1 } .moveLeft) := rfl

theorem step_plus (st : BfState) :
    step st '+' = .ok (emitOp { st with col := st.col + 1 } .increment) := rfl

theorem step_minus (st : BfState) :
    step st '-' = .ok (emitOp { st with col := st.col + 1 } .decrement) := rfl

theorem step_open (st : BfState) : step st '[' =
    (match st.blockStack with
     | cur :: rest =>
       .ok { st with
         col := st.col + 1,
         blocks := addTerm (st.blocks ++ [BasicBlock.empty, BasicBlock.empty]) cur
           (.cbr st.blocks.length (st.blocks.length + 1)),
         blockStack := st.blocks.length :: (st.blocks.length + 1) :: rest,
         loopStack := st.blocks.length :: st.loopStack }
     | [] => .error .indexError) := rfl

theorem step_close (st : BfState) : step st ']' =
    (if st.blockStack.length ≤ 1 then
      .error (.unmatchedClose st.line (st.col + 1))
    else
      match st.blockStack, st.loopStack with
      | cur :: tailB :: rest, l :: ls =>
        .ok { st with
          col := st.col + 1,
          blocks := addTerm st.blocks cur (.cbr l tailB),
          blockStack := tailB :: rest,
          loopStack := ls }
      | _, _ => .error .indexError) := rfl

theorem step_comment (st : BfState) (ch : Char) (h : isInstrChar ch = false) (hn : ch ≠ '\n') :
    step st ch = .ok { st with col := st.col + 1 } := by
  simp only [isInstrChar, Bool.or_eq_false_iff, decide_eq_false_iff_not] at h
  obtain ⟨⟨⟨⟨⟨⟨⟨h1, h2⟩, h3⟩, h4⟩, h5⟩, h6⟩, h7⟩, h8⟩ := h
  simp only [step, if_neg hn, if_neg h1, if_neg h2, if_neg h3, if_neg h4, if_neg h5, if_neg h6,
    if_neg h7, if_neg h8]

/-! ## The scan invariant -/

/-- Invariant of the scan state maintained by `step`: the block stack has one
more element than the loop stack; every stacked block id is a valid index into
`blocks`; the block stack has no duplicates; a block has no terminator yet
exactly when it is still on the block stack; and every block already off the
stack was closed with exactly one conditional branch. -/
structure Good (st : BfState) : Prop where
  stackLen : st.blockStack.length = st.loopStack.length + 1
  stackLt : ∀ b ∈ st.blockStack, b < st.blocks.length
  loopLt : ∀ b ∈ st.loopStack, b < st.blocks.length
  nodup : st.blockStack.Nodup
  terms : ∀ i bb, st.blocks[i]? = some bb →
    (bb.terms = [] ↔ i ∈ st.blockStack) ∧
    (i ∉ st.blockStack → ∃ x y, bb.terms = [BTerm.cbr x y])

theorem good_init : Good initState := by
  refine ⟨rfl, ?_, ?_, ?_, ?_⟩
  · intro b hb
    simp only [initState, List.mem_singleton] at hb
    simp [hb, initState]
  · intro b hb
    simp [initState] at hb
  · simp [initState]
  · intro i bb hbb
    rcases i with _ | i
    · simp only [initState, List.getElem?_cons_zero, Option.some.injEq] at hbb
      subst hbb
      simp [initState, BasicBlock.empty]
    · simp [initState] at hbb

theorem emitOp_fields (st : BfState) (op : Op) :
    (emitOp st op).blockStack = st.blockStack ∧ (emitOp st op).loopStack = st.loopStack ∧
    (emitOp st op).blocks.length = st.blocks.length ∧
    ∀ i : Nat, ((emitOp st op).blocks[i]?).map BasicBlock.terms =
      (st.blocks[i]?).map BasicBlock.terms := by
  rcases hbs : st.blockStack with _ | ⟨cur, rest⟩
  · simp [emitOp, hbs]
  · refine ⟨?_, ?_, ?_, ?_⟩
    · simp [emitOp, hbs]
    · simp [emitOp, hbs]
    · simp [emitOp, hbs, length_updateAt]
    · intro i
      simp only [emitOp, hbs]
      by_cases hic : cur = i
      · subst hic
        rw [updateAt_getElem?_self]
        cases st.blocks[cur]? <;> simp
      · rw [updateAt_getElem?_ne _ _ _ _ hic]

theorem good_emitOp (st : BfState) (op : Op) (hg : Good st) : Good (emitOp st op) := by
  obtain ⟨hbs, hls, hlen, hterms⟩ := emitOp_fields st op
  refine ⟨?_, ?_, ?_, ?_, ?_⟩
  · rw [hbs, hls]; exact hg.stackLen
  · intro b hb; rw [hbs] at hb; rw [hlen]; exact hg.stackLt b hb
  · intro b hb; rw [hls] at hb; rw [hlen]; exact hg.loopLt b hb
  · rw [hbs]; exact hg.nodup
  · intro i bb hbb
    have hmap := hterms i
    rw [hbb] at hmap
    rcases hold : st.blocks[i]? with _ | bb0
    · rw [hold] at hmap; simp at hmap
    · rw [hold] at hmap
      simp only [Option.map_some'] at hmap
      have h2 : bb.terms = bb0.terms := Option.some.inj hmap
      rw [hbs, h2]
      exact hg.terms i bb0 hold

theorem step_good (st st' : BfState) (ch : Char) (h : step st ch = .ok st') (hg : Good st) :
    Good st' := by
  by_cases c1 : ch = '\n'
  · subst c1; rw [step_newline] at h
    obtain rfl := Except.ok.inj h
    exact ⟨hg.stackLen, hg.stackLt, hg.loopLt, hg.nodup, hg.terms⟩
  by_cases c2 : ch = '.'
  · subst c2; rw [step_dot] at h
    obtain rfl := Except.ok.inj h
    exact good_emitOp _ _ ⟨hg.stackLen, hg.stackLt, hg.loopLt, hg.nodup, hg.terms⟩
  by_cases c3 : ch = ','
  · subst c3; rw [step_comma] at h
    obtain rfl := Except.ok.inj h
    exact good_emitOp _ _ ⟨hg.stackLen, hg.stackLt, hg.loopLt, hg.nodup, hg.terms⟩
  by_cases c4 : ch = '>'
  · subst c4; rw [step_right] at h
    obtain rfl := Except.ok.inj h
    exact good_emitOp _ _ ⟨hg.stackLen, hg.stackLt, hg.loopLt, hg.nodup, hg.terms⟩
  by_cases c5 : ch = '<'
  · subst c5; rw [step_left] at h
    obtain rfl := Except.ok.inj h
    exact good_emitOp _ _ ⟨hg.stackLen, hg.stackLt, hg.loopLt, hg.nodup, hg.terms⟩
  by_cases c6 : ch = '+'
  · subst c6; rw [step_plus] at h
    obtain rfl := Except.ok.inj h
    exact good_emitOp _ _ ⟨hg.stackLen, hg.stackLt, hg.loopLt, hg.nodup, hg.terms⟩
  by_cases c7 : ch = '-'
  · subst c7; rw [step_minus] at h
    obtain rfl := Except.ok.inj h
    exact good_emitOp _ _ ⟨hg.stackLen, hg.stackLt, hg.loopLt, hg.nodup, hg.terms⟩
  by_cases c8 : ch = '['
  · subst c8; rw [step_open] at h
    rcases hbs : st.blockStack with _ | ⟨cur, rest⟩
    · simp only [hbs] at h
      exact Except.noConfusion h
    · simp only [hbs] at h
      obtain rfl := Except.ok.inj h
      have hcur : cur < st.blocks.length := hg.stackLt cur (by rw [hbs]; exact List.mem_cons_self ..)
      have hrest : ∀ b ∈ rest, b < st.blocks.length := fun b hb =>
        hg.stackLt b (by rw [hbs]; exact List.mem_cons_of_mem _ hb)
      have hnodup := hg.nodup
      rw [hbs, List.nodup_cons] at hnodup
      have hlenA : (addTerm (st.blocks ++ [BasicBlock.empty, BasicBlock.empty]) cur
          (BTerm.cbr st.blocks.length (st.blocks.length + 1))).length = st.blocks.length + 2 := by
        rw [length_addTerm, List.length_append]
        rfl
      have hslen := hg.stackLen
      rw [hbs] at hslen
      refine ⟨?_, ?_, ?_, ?_, ?_⟩
      · simp only [List.length_cons] at hslen ⊢
        omega
      · intro b hb
        rw [hlenA]
        rcases List.mem_cons.mp hb with rfl | hb'
        · omega
        rcases List.mem_cons.mp hb' with rfl | hb''
        · omega
        · have := hrest b hb''; omega
      · intro b hb
        rw [hlenA]
        rcases List.mem_cons.mp hb with rfl | hb'
        · omega
        · have := hg.loopLt b hb'; omega
      · refine List.nodup_cons.mpr ⟨?_, List.nodup_cons.mpr ⟨?_, hnodup.2⟩⟩
        · intro hmem
          rcases List.mem_cons.mp hmem with heq | hmem'
          · omega
          · have := hrest _ hmem'; omega
        · intro hmem
          have := hrest _ hmem; omega
      · intro i bb hbb
        by_cases hic : cur = i
        · subst hic
          rw [addTerm, updateAt_getElem?_self, List.getElem?_append_left hcur] at hbb
          obtain ⟨bb0, hbb0⟩ : ∃ bb0, st.blocks[cur]? = some bb0 :=
            ⟨st.blocks[cur], List.getElem?_eq_getElem hcur⟩
          rw [hbb0] at hbb
          simp only [Option.map_some'] at hbb
          obtain rfl := (Option.some.inj hbb).symm
          have hempty : bb0.terms = [] :=
            ((hg.terms cur bb0 hbb0).1).mpr (by rw [hbs]; exact List.mem_cons_self ..)
          have hnotmem : cur ∉
              st.blocks.length :: (st.blocks.length + 1) :: rest := by
            intro hmem
            rcases List.mem_cons.mp hmem with heq | hmem'
            · omega
            rcases List.mem_cons.mp hmem' with heq | hmem''
            · omega
            · exact hnodup.1 hmem''
          constructor
          · simp only [hempty]
            constructor
            · intro hfalse; simp at hfalse
            · intro hmem; exact absurd hmem hnotmem
          · intro _
            exact ⟨st.blocks.length, st.blocks.length + 1, by simp [hempty]⟩
        · rw [addTerm, updateAt_getElem?_ne _ _ _ _ hic] at hbb
          by_cases hi : i < st.blocks.length
          · rw [List.getElem?_append_left hi] at hbb
            have hold := hg.terms i bb hbb
            rw [hbs] at hold
            have hmemtrans : (i ∈ st.blocks.length :: (st.blocks.length + 1) :: rest) ↔
                (i ∈ cur :: rest) := by
              constructor
              · intro hmem
                rcases List.mem_cons.mp hmem with heq | hmem'
                · omega
                rcases List.mem_cons.mp hmem' with heq | hmem''
                · omega
                · exact List.mem_cons_of_mem _ hmem''
              · intro hmem
                rcases List.mem_cons.mp hmem with heq | hmem'
                · exact absurd heq.symm hic
                · exact List.mem_cons_of_mem _ (List.mem_cons_of_mem _ hmem')
            rw [hmemtrans]
            exact hold
          · have hge : st.blocks.length ≤ i := Nat.le_of_not_lt hi
            rw [List.getElem?_append_right hge] at hbb
            have hsub : i - st.blocks.length < 2 := by
              by_contra hcon
              have : ([BasicBlock.empty, BasicBlock.empty] :
                  List BasicBlock)[i - st.blocks.length]? = none :=
                List.getElem?_eq_none (by simpa using Nat.le_of_not_lt hcon)
              rw [this] at hbb
              exact Option.noConfusion hbb
            have hbbe : bb = BasicBlock.empty := by
              interval_cases h2 : (i - st.blocks.length)
              · exact (Option.some.inj hbb).symm
              · exact (Option.some.inj hbb).symm
            have himem : i = st.blocks.length ∨ i = st.blocks.length + 1 := by omega
            constructor
            · constructor
              · intro _
                rcases himem with rfl | rfl
                · exact List.mem_cons_self ..
                · exact List.mem_cons_of_mem _ (List.mem_cons_self ..)
              · intro _; rw [hbbe]; rfl
            · intro hnot
              exfalso
              rcases himem with rfl | rfl
              · exact hnot (List.mem_cons_self ..)
              · exact hnot (List.mem_cons_of_mem _ (List.mem_cons_self ..))
  by_cases c9 : ch = ']'
  · subst c9; rw [step_close] at h
    by_cases hle : st.blockStack.length ≤ 1
    · rw [if_pos hle] at h
      exact Except.noConfusion h
    · rw [if_neg hle] at h
      rcases hbs : st.blockStack with _ | ⟨cur, rest0⟩
      · rw [hbs] at hle; simp at hle
      rcases rest0 with _ | ⟨tailB, rest⟩
      · rw [hbs] at hle; simp at hle
      rcases hls : st.loopStack with _ | ⟨l, ls⟩
      · have := hg.stackLen
        rw [hbs, hls] at this
        simp at this
      simp only [hbs, hls] at h
      obtain rfl := Except.ok.inj h
      have hcur : cur < st.blocks.length := hg.stackLt cur (by rw [hbs]; exact List.mem_cons_self ..)
      have hnodup := hg.nodup
      rw [hbs, List.nodup_cons] at hnodup
      have hslen := hg.stackLen
      rw [hbs, hls] at hslen
      refine ⟨?_, ?_, ?_, ?_, ?_⟩
      · simp only [List.length_cons] at hslen ⊢
        omega
      · intro b hb
        rw [length_addTerm]
        exact hg.stackLt b (by rw [hbs]; exact List.mem_cons_of_mem _ hb)
      · intro b hb
        rw [length_addTerm]
        exact hg.loopLt b (by rw [hls]; exact List.mem_cons_of_mem _ hb)
      · exact hnodup.2
      · intro i bb hbb
        by_cases hic : cur = i
        · subst hic
          rw [addTerm, updateAt_getElem?_self] at hbb
          obtain ⟨bb0, hbb0⟩ : ∃ bb0, st.blocks[cur]? = some bb0 :=
            ⟨st.blocks[cur], List.getElem?_eq_getElem hcur⟩
          rw [hbb0] at hbb
          simp only [Option.map_some'] at hbb
          obtain rfl := (Option.some.inj hbb).symm
          have hempty : bb0.terms = [] :=
            ((hg.terms cur bb0 hbb0).1).mpr (by rw [hbs]; exact List.mem_cons_self ..)
          constructor
          · simp only [hempty]
            constructor
            · intro hfalse; simp at hfalse
            · intro hmem; exact absurd hmem hnodup.1
          · intro _
            exact ⟨l, tailB, by simp [hempty]⟩
        · rw [addTerm, updateAt_getElem?_ne _ _ _ _ hic] at hbb
          have hold := hg.terms i bb hbb
          rw [hbs] at hold
          have hmemtrans : (i ∈ tailB :: rest) ↔ (i ∈ cur :: tailB :: rest) := by
            constructor
            · intro hmem; exact List.mem_cons_of_mem _ hmem
            · intro hmem
              rcases List.mem_cons.mp hmem with heq | hmem'
              · exact absurd heq.symm hic
              · exact hmem'
          rw [hmemtrans]
          exact hold
  -- remaining characters are comments
  have hinstr : isInstrChar ch = false := by
    simp only [isInstrChar, Bool.or_eq_false_iff, decide_eq_false_iff_not]
    exact ⟨⟨⟨⟨⟨⟨⟨c4, c5⟩, c6⟩, c7⟩, c2⟩, c3⟩, c8⟩, c9⟩
  rw [step_comment st ch hinstr c1] at h
  obtain rfl := Except.ok.inj h
  exact ⟨hg.stackLen, hg.stackLt, hg.loopLt, hg.nodup, hg.terms⟩

/-! ## Scan lemmas -/

theorem scanFrom_nil (st : BfState) : scanFrom st [] = .ok st := rfl

theorem scanFrom_cons (st : BfState) (ch : Char) (rest : List Char) :
    scanFrom st (ch :: rest) =
      (match step st ch with
       | .ok st' => scanFrom st' rest
       | .error e => .error e) := rfl

theorem scanFrom_append (st : BfState) (p q : List Char) :
    scanFrom st (p ++ q) =
      (match scanFrom st p with
       | .ok st' => scanFrom st' q
       | .error e => .error e) := by
  induction p generalizing st with
  | nil => rw [List.nil_append, scanFrom_nil]
  | cons ch rest ih =>
    rw [List.cons_append, scanFrom_cons, scanFrom_cons]
    cases step st ch with
    | ok st' => exact ih st'
    | error e => rfl

theorem scanFrom_good (cs : List Char) (st st' : BfState) (h : scanFrom st cs = .ok st')
    (hg : Good st) : Good st' := by
  induction cs generalizing st with
  | nil =>
    rw [scanFrom_nil] at h
    obtain rfl := Except.ok.inj h
    exact hg
  | cons ch rest ih =>
    rw [scanFrom_cons] at h
    cases hstep : step st ch with
    | ok st1 =>
      rw [hstep] at h
      exact ih st1 h (step_good st st1 ch hstep hg)
    | error e =>
      rw [hstep] at h
      exact Except.noConfusion h

theorem scan_good (p : List Char) (st : BfState) (h : scan p = .ok st) : Good st :=
  scanFrom_good p initState st h good_init

theorem step_open_ok (st : BfState) (cur : Nat) (rest : List Nat)
    (hbs : st.blockStack = cur :: rest) :
    ∃ st1, step st '[' = .ok st1 ∧ st1.loopStack = st.blocks.length :: st.loopStack ∧
      st1.blockStack = st.blocks.length :: (st.blocks.length + 1) :: rest := by
  rw [step_open]
  simp only [hbs]
  exact ⟨_, rfl, rfl, rfl⟩

theorem step_close_ok (st : BfState) (cur tailB : Nat) (rest : List Nat) (l : Nat) (ls : List Nat)
    (hbs : st.blockStack = cur :: tailB :: rest) (hls : st.loopStack = l :: ls) :
    step st ']' = .ok { st with
      col := st.col + 1,
      blocks := addTerm st.blocks cur (.cbr l tailB),
      blockStack := tailB :: rest,
      loopStack := ls } := by
  rw [step_close, if_neg (by rw [hbs]; simp)]
  simp only [hbs, hls]

theorem step_not_bracket (st : BfState) (ch : Char) (hc1 : ch ≠ '[') (hc2 : ch ≠ ']') :
    ∃ st1, step st ch = .ok st1 ∧ st1.blockStack = st.blockStack ∧
      st1.loopStack = st.loopStack := by
  by_cases h : ch = '\n'
  · subst h; exact ⟨_, step_newline st, rfl, rfl⟩
  by_cases h2 : ch = '.'
  · subst h2
    obtain ⟨he1, he2, _, _⟩ := emitOp_fields { st with col := st.col + 1 } .output
    exact ⟨_, step_dot st, he1, he2⟩
  by_cases h3 : ch = ','
  · subst h3
    obtain ⟨he1, he2, _, _⟩ := emitOp_fields { st with col := st.col + 1 } .input
    exact ⟨_, step_comma st, he1, he2⟩
  by_cases h4 : ch = '>'
  · subst h4
    obtain ⟨he1, he2, _, _⟩ := emitOp_fields { st with col := st.col + 1 } .moveRight
    exact ⟨_, step_right st, he1, he2⟩
  by_cases h5 : ch = '<'
  · subst h5
    obtain ⟨he1, he2, _, _⟩ := emitOp_fields { st with col := st.col + 1 } .moveLeft
    exact ⟨_, step_left st, he1, he2⟩
  by_cases h6 : ch = '+'
  · subst h6
    obtain ⟨he1, he2, _, _⟩ := emitOp_fields { st with col := st.col + 1 } .increment
    exact ⟨_, step_plus st, he1, he2⟩
  by_cases h7 : ch = '-'
  · subst h7
    obtain ⟨he1, he2, _, _⟩ := emitOp_fields { st with col := st.col + 1 } .decrement
    exact ⟨_, step_minus st, he1, he2⟩
  have hinstr : isInstrChar ch = false := by
    simp only [isInstrChar, Bool.or_eq_false_iff, decide_eq_false_iff_not]
    exact ⟨⟨⟨⟨⟨⟨⟨h4, h5⟩, h6⟩, h7⟩, h2⟩, h3⟩, hc1⟩, hc2⟩
  exact ⟨_, step_comment st ch hinstr h, rfl, rfl⟩

theorem scanDepth_open (rest : List Char) (d : Nat) :
    scanDepth ('[' :: rest) d = scanDepth rest (d + 1) := rfl

theorem scanDepth_close (rest : List Char) (d : Nat) :
    scanDepth (']' :: rest) d =
      (match d with
       | 0 => none
       | d' + 1 => scanDepth rest d') := rfl

theorem scanDepth_other (ch : Char) (rest : List Char) (d : Nat) (hc1 : ch ≠ '[')
    (hc2 : ch ≠ ']') : scanDepth (ch :: rest) d = scanDepth rest d := by
  simp only [scanDepth, if_neg hc1, if_neg hc2]

theorem scanFrom_ok_of_scanDepth (cs : List Char) (st : BfState) (e : Nat) (hg : Good st)
    (hd : scanDepth cs st.loopStack.length = some e) :
    ∃ st', scanFrom st cs = .ok st' ∧ Good st' ∧ st'.loopStack.length = e := by
  induction cs generalizing st with
  | nil =>
    exact ⟨st, rfl, hg, Option.some.inj hd⟩
  | cons ch rest ih =>
    by_cases c1 : ch = '['
    · subst c1
      rcases hbs : st.blockStack with _ | ⟨cur, r⟩
      · have := hg.stackLen
        rw [hbs] at this
        exact absurd this.symm (Nat.succ_ne_zero _)
      obtain ⟨st1, hstep, hloop, _⟩ := step_open_ok st cur r hbs
      have hg1 := step_good st st1 '[' hstep hg
      rw [scanDepth_open] at hd
      have hd1 : scanDepth rest st1.loopStack.length = some e := by
        rw [hloop]
        simpa using hd
      obtain ⟨st', hscan, hg', hlen⟩ := ih st1 hg1 hd1
      refine ⟨st', ?_, hg', hlen⟩
      rw [scanFrom_cons, hstep]
      exact hscan
    by_cases c2 : ch = ']'
    · subst c2
      rw [scanDepth_close] at hd
      rcases hls : st.loopStack with _ | ⟨l, ls⟩
      · rw [hls] at hd
        exact absurd hd (by simp)
      rw [hls] at hd
      simp only [List.length_cons] at hd
      have hslen := hg.stackLen
      rw [hls] at hslen
      rcases hbs : st.blockStack with _ | ⟨cur, rest0⟩
      · rw [hbs] at hslen
        exact absurd hslen.symm (Nat.succ_ne_zero _)
      rcases rest0 with _ | ⟨tailB, r⟩
      · rw [hbs] at hslen
        simp at hslen
      have hstep := step_close_ok st cur tailB r l ls hbs hls
      have hg1 := step_good st _ ']' hstep hg
      obtain ⟨st', hscan, hg', hlen⟩ := ih _ hg1 hd
      refine ⟨st', ?_, hg', hlen⟩
      rw [scanFrom_cons, hstep]
      exact hscan
    · obtain ⟨st1, hstep, _, hloop⟩ := step_not_bracket st ch c1 c2
      have hg1 := step_good st st1 ch hstep hg
      rw [scanDepth_other ch rest _ c1 c2] at hd
      have hd1 : scanDepth rest st1.loopStack.length = some e := by rw [hloop]; exact hd
      obtain ⟨st', hscan, hg', hlen⟩ := ih st1 hg1 hd1
      refine ⟨st', ?_, hg', hlen⟩
      rw [scanFrom_cons, hstep]
      exact hscan

/-! ## Arithmetic lemmas for the index and cell operations -/

theorem memory_size_eq : MEMORY_SIZE = 65536 := by decide

theorem land_mask (n : Nat) : n &&& MEMORY_MASK = n % MEMORY_SIZE := by
  have h := Nat.and_pow_two_sub_one_eq_mod n 16
  have h1 : MEMORY_MASK = 2 ^ 16 - 1 := by decide
  have h2 : MEMORY_SIZE = 2 ^ 16 := by decide
  rw [h1, h2]
  exact h

theorem size_dvd_i32 : MEMORY_SIZE ∣ I32_MOD := by decide

theorem advanceRight_eq (i : Nat) : advanceRight i = (i + 1) % MEMORY_SIZE := by
  rw [advanceRight, land_mask, Nat.mod_mod_of_dvd _ size_dvd_i32]

theorem advanceLeft_eq (i : Nat) : advanceLeft i = (i + (MEMORY_SIZE - 1)) % MEMORY_SIZE := by
  rw [advanceLeft, land_mask, Nat.mod_mod_of_dvd _ size_dvd_i32]
  rw [memory_size_eq]
  have hi32 : I32_MOD - 1 = 4294967295 := by decide
  rw [hi32]
  omega

theorem advanceRight_lt (i : Nat) : advanceRight i < MEMORY_SIZE := by
  rw [advanceRight_eq]
  exact Nat.mod_lt _ (by decide)

theorem advanceLeft_lt (i : Nat) : advanceLeft i < MEMORY_SIZE := by
  rw [advanceLeft_eq]
  exact Nat.mod_lt _ (by decide)

theorem advanceRight_iterate (k i : Nat) (h : i < MEMORY_SIZE) :
    advanceRight^[k] i = (i + k) % MEMORY_SIZE := by
  induction k generalizing i with
  | zero => simpa using (Nat.mod_eq_of_lt h).symm
  | succ k ih =>
    rw [Function.iterate_succ_apply, ih (advanceRight i) (advanceRight_lt i), advanceRight_eq,
      Nat.mod_add_mod]
    congr 1
    omega

theorem execOp_index_lt (s s' : ExecState) (op : Op) (h : execOp s op = some s')
    (hlt : s.index < MEMORY_SIZE) : s'.index < MEMORY_SIZE := by
  cases op with
  | output =>
    obtain rfl := Option.some.inj h
    exact hlt
  | input =>
    simp only [execOp, getc] at h
    exact Option.noConfusion h
  | moveRight =>
    obtain rfl := Option.some.inj h
    exact advanceRight_lt s.index
  | moveLeft =>
    obtain rfl := Option.some.inj h
    exact advanceLeft_lt s.index
  | increment =>
    obtain rfl := Option.some.inj h
    exact hlt
  | decrement =>
    obtain rfl := Option.some.inj h
    exact hlt

theorem execOps_index_lt (ops : List Op) (s s' : ExecState) (h : execOps s ops = some s')
    (hlt : s.index < MEMORY_SIZE) : s'.index < MEMORY_SIZE := by
  induction ops generalizing s with
  | nil =>
    obtain rfl := Option.some.inj h
    exact hlt
  | cons op rest ih =>
    rw [execOps] at h
    cases hop : execOp s op with
    | none => rw [hop] at h; exact Option.noConfusion h
    | some s1 =>
      rw [hop] at h
      exact ih s1 h (execOp_index_lt s s1 op hop hlt)

theorem run_index_lt (m : BfModule) (fuel bid : Nat) (s s' : ExecState)
    (h : run m fuel bid s = some s') (hlt : s.index < MEMORY_SIZE) :
    s'.index < MEMORY_SIZE := by
  induction fuel generalizing bid s with
  | zero => exact Option.noConfusion h
  | succ fuel ih =>
    rw [run] at h
    cases hbb : m.blocks[bid]? with
    | none =>
      simp only [hbb] at h
      exact Option.noConfusion h
    | some bb =>
      simp only [hbb] at h
      cases hops : execOps s bb.ops with
      | none =>
        simp only [hops] at h
        exact Option.noConfusion h
      | some s1 =>
        simp only [hops] at h
        have hlt1 := execOps_index_lt bb.ops s s1 hops hlt
        cases hterm : bb.terms.head? with
        | none =>
          simp only [hterm] at h
          exact Option.noConfusion h
        | some t =>
          simp only [hterm] at h
          cases t with
          | ret =>
            obtain rfl := Option.some.inj h
            exact hlt1
          | cbr a b => exact ih _ s1 h hlt1

set_option maxRecDepth 2048 in
theorem toSigned8_mod128 : ∀ b : Nat, b < 256 → ((toSigned8 b) % 128).toNat = b &&& 127 := by
  decide

/-! ## The claims -/

/-- C2: a close bracket reaching the scan with the block stack at depth 1 fails
immediately with the unmatched-close error carrying the current line and the
current (just-incremented) column; in particular compiling the one-character
program of a lone close bracket fails at line 1, column 2. -/
theorem claim2 :
    (∀ st : BfState, st.blockStack.length = 1 →
      step st ']' = .error (.unmatchedClose st.line (st.col + 1))) ∧
    compile_bf [']'] = .error (.unmatchedClose 1 2) := by
  constructor
  · intro st h
    rw [step_close, if_pos (by omega)]
  · rfl

/-- Witness for C2: the lone close bracket fails from the initial state at
line 1, column 2. -/
theorem claim2_witness : step initState ']' = .error (.unmatchedClose 1 2) :=
  claim2.1 initState rfl

/-- C3: if the scan completes with more than one block on the stack, the whole
compilation fails with the unmatched-open error at the final scan position;
in particular compiling a lone open bracket fails at line 1, column 2 (the
end-of-input position). -/
theorem claim3 :
    (∀ (p : List Char) (st : BfState), scan p = .ok st → 1 < st.blockStack.length →
      compile_bf p = .error (.unmatchedOpen st.line st.col)) ∧
    compile_bf ['['] = .error (.unmatchedOpen 1 2) := by
  constructor
  · intro p st hscan hlen
    have hc : compile_bf p = finalize st := by
      simp only [compile_bf, hscan]
    rw [hc]
    rcases hbs : st.blockStack with _ | ⟨b, rest⟩
    · simp only [finalize, hbs]
    rcases rest with _ | ⟨b2, r⟩
    · rw [hbs] at hlen
      simp at hlen
    · simp only [finalize, hbs]
  · rfl

/-- Witness for C3, applying the general statement at the lone open bracket and
the concrete state its scan reaches. -/
theorem claim3_witness : compile_bf ['['] = .error (.unmatchedOpen 1 2) :=
  claim3.1 ['[']
    ⟨[⟨[], [BTerm.cbr 1 2]⟩, BasicBlock.empty, BasicBlock.empty], [1, 2], [1], 1, 2⟩
    rfl (by decide)

/-- C4 (code bug): compiling `",."` succeeds, but running it on the input
stream holding the single byte 65 (`'A'`) has no defined result, because the
`getc` bridge's `str` return value cannot be converted to `c_int8` — the byte
the `,` instruction stores is undefined garbage, not the byte read, so the
program does not write byte 65 as claimed.  Under the spec's intended bridge
(`getcSpec`/`runSpec`, where `getc` delivers the byte read) the very same
compiled module does write exactly the byte 65 with the cell holding 65: the
claim describes the intent, and the source's bridge is the slip. -/
theorem claim4 :
    ∃ m, compile_bf [',', '.'] = .ok m ∧
      run m 9 0 (initExec [65]) = none ∧
      (runSpec m 9 0 (initExec [65])).map (fun s => (s.output, s.mem s.index)) =
        some ([65], 65) :=
  ⟨⟨[⟨[Op.input, Op.output], [BTerm.ret]⟩]⟩, rfl, rfl, rfl⟩

/-- C5: both cursor moves mask the 32-bit sum with `MEMORY_SIZE - 1`, so the
stored index always stays in `[0, MEMORY_SIZE)` (through single operations and
whole runs); a left move from index 0 wraps to 65535; and 65536 right moves
return any in-range index to itself. -/
theorem claim5 :
    (∀ (s s' : ExecState) (op : Op), execOp s op = some s' → s.index < MEMORY_SIZE →
      s'.index < MEMORY_SIZE) ∧
    (∀ (m : BfModule) (fuel bid : Nat) (s s' : ExecState), run m fuel bid s = some s' →
      s.index < MEMORY_SIZE → s'.index < MEMORY_SIZE) ∧
    (∀ s s' : ExecState, execOp s .moveRight = some s' →
      s'.index = (s.index + 1) % MEMORY_SIZE) ∧
    (∀ s s' : ExecState, execOp s .moveLeft = some s' →
      s'.index = (s.index + (MEMORY_SIZE - 1)) % MEMORY_SIZE) ∧
    (∀ s s' : ExecState, s.index = 0 → execOp s .moveLeft = some s' →
      s'.index = MEMORY_SIZE - 1) ∧
    (∀ i : Nat, i < MEMORY_SIZE → advanceRight^[MEMORY_SIZE] i = i) := by
  refine ⟨execOp_index_lt, run_index_lt, ?_, ?_, ?_, ?_⟩
  · intro s s' h
    obtain rfl := Option.some.inj h
    exact advanceRight_eq s.index
  · intro s s' h
    obtain rfl := Option.some.inj h
    exact advanceLeft_eq s.index
  · intro s s' h0 h
    obtain rfl := Option.some.inj h
    show advanceLeft s.index = MEMORY_SIZE - 1
    rw [advanceLeft_eq, h0]
    decide
  · intro i hi
    rw [advanceRight_iterate MEMORY_SIZE i hi]
    rw [memory_size_eq] at hi ⊢
    omega

/-- Witness for C5: a left move from the zero-initialized state lands on 65535,
and 65536 right moves return index 3 to itself. -/
theorem claim5_witness :
    (∃ s', execOp (initExec []) .moveLeft = some s' ∧ s'.index = MEMORY_SIZE - 1) ∧
    advanceRight^[MEMORY_SIZE] 3 = 3 :=
  ⟨⟨_, rfl, claim5.2.2.2.2.1 (initExec []) _ rfl rfl⟩,
   claim5.2.2.2.2.2 3 (by decide)⟩

/-- C6: the increment and decrement instructions act on the current cell with
8-bit wraparound arithmetic, bit-exactly modulo 256: the new cell is the old
plus (respectively minus) one modulo 256, so 255 increments to 0, 0 decrements
to 255, and a compiled lone `'-'` run on zeroed memory leaves cell 0 at 255. -/
theorem claim6 :
    (∀ s s' : ExecState, execOp s .increment = some s' →
      s'.mem s.index = (s.mem s.index + 1) % 256) ∧
    (∀ s s' : ExecState, execOp s .decrement = some s' →
      s'.mem s.index = (s.mem s.index + 255) % 256) ∧
    (∀ s s' : ExecState, s.mem s.index = 255 → execOp s .increment = some s' →
      s'.mem s.index = 0) ∧
    (∀ s s' : ExecState, s.mem s.index = 0 → execOp s .decrement = some s' →
      s'.mem s.index = 255) ∧
    (∃ m, compile_bf ['-'] = .ok m ∧
      (run m 9 0 (initExec [])).map (fun s => s.mem 0) = some 255) := by
  refine ⟨?_, ?_, ?_, ?_, ?_⟩
  · intro s s' h
    obtain rfl := Option.some.inj h
    simp [updMem, I8_MOD]
  · intro s s' h
    obtain rfl := Option.some.inj h
    simp [updMem, I8_MOD]
  · intro s s' h0 h
    obtain rfl := Option.some.inj h
    simp [updMem, I8_MOD, h0]
  · intro s s' h0 h
    obtain rfl := Option.some.inj h
    simp [updMem, I8_MOD, h0]
  · exact ⟨⟨[⟨[Op.decrement], [BTerm.ret]⟩]⟩, rfl, rfl⟩

/-- Witness for C6: decrementing the zeroed initial cell yields 255. -/
theorem claim6_witness :
    ∃ s', execOp (initExec []) .decrement = some s' ∧
      s'.mem (initExec []).index = 255 :=
  ⟨_, rfl, claim6.2.2.2.1 (initExec []) _ rfl rfl⟩

/-- C9: `putc` writes exactly the low 7 bits of its argument byte (the byte AND
0x7f) to the output stream, appending exactly one value per call (the write is
flushed immediately, so each call extends the stream atomically and in
instruction order). -/
theorem claim9 (b : Nat) (out : List Nat) (hb : b < 256) :
    putc (toSigned8 b) out = out ++ [b &&& 127] ∧
    (putc (toSigned8 b) out).length = out.length + 1 := by
  constructor
  · rw [putc, toSigned8_mod128 b hb]
  · rw [putc, List.length_append, List.length_singleton]

/-- Witness for C9 at the byte 200 (which the `c_int8` bridge passes as -56)
and a nonempty output stream. -/
theorem claim9_witness :
    putc (toSigned8 200) [7] = [7] ++ [200 &&& 127] ∧
    (putc (toSigned8 200) [7]).length = [7].length + 1 :=
  claim9 200 [7] (by decide)

theorem scanDepth_of_scanFrom (cs : List Char) (st st' : BfState) (hg : Good st)
    (h : scanFrom st cs = .ok st') :
    scanDepth cs st.loopStack.length = some st'.loopStack.length := by
  induction cs generalizing st with
  | nil =>
    rw [scanFrom_nil] at h
    obtain rfl := Except.ok.inj h
    rfl
  | cons ch rest ih =>
    rw [scanFrom_cons] at h
    by_cases c1 : ch = '['
    · subst c1
      rcases hbs : st.blockStack with _ | ⟨cur, r⟩
      · have hsl := hg.stackLen
        rw [hbs] at hsl
        exact absurd hsl.symm (Nat.succ_ne_zero _)
      obtain ⟨st1, hstep, hloop, _⟩ := step_open_ok st cur r hbs
      rw [hstep] at h
      rw [scanDepth_open]
      have hrec := ih st1 (step_good st st1 '[' hstep hg) h
      rw [hloop] at hrec
      simpa using hrec
    by_cases c2 : ch = ']'
    · subst c2
      rcases hls : st.loopStack with _ | ⟨l, ls⟩
      · have hslen := hg.stackLen
        rw [hls] at hslen
        simp only [List.length_nil] at hslen
        have hle : st.blockStack.length ≤ 1 := by omega
        rw [step_close, if_pos hle] at h
        exact Except.noConfusion h
      · have hslen := hg.stackLen
        rw [hls] at hslen
        rcases hbs : st.blockStack with _ | ⟨cur, rest0⟩
        · rw [hbs] at hslen
          simp at hslen
        rcases rest0 with _ | ⟨tailB, r⟩
        · rw [hbs] at hslen
          simp at hslen
        have hstep := step_close_ok st cur tailB r l ls hbs hls
        rw [hstep] at h
        have hrec := ih _ (step_good st _ ']' hstep hg) h
        rw [scanDepth_close]
        exact hrec
    · obtain ⟨st1, hstep, _, hloop⟩ := step_not_bracket st ch c1 c2
      rw [hstep] at h
      rw [scanDepth_other ch rest _ c1 c2]
      have hrec := ih st1 (step_good st st1 ch hstep hg) h
      rw [hloop] at hrec
      exact hrec

/-- C1: every program with balanced brackets compiles without error, the block
stack holds exactly one block when the scan ends, and the final `ret void` is
emitted into that single remaining block. -/
theorem claim1 (p : List Char) (hb : balanced p = true) :
    ∃ st b bb m, scan p = .ok st ∧ st.blockStack = [b] ∧ compile_bf p = .ok m ∧
      m.blocks[b]? = some bb ∧ bb.terms = [BTerm.ret] := by
  have hd : scanDepth p 0 = some 0 := by
    rw [balanced] at hb
    exact eq_of_beq hb
  obtain ⟨st, hscan, hg, hlen⟩ := scanFrom_ok_of_scanDepth p initState 0 good_init hd
  have hbl : st.blockStack.length = 1 := by rw [hg.stackLen, hlen]
  rcases hbs : st.blockStack with _ | ⟨b, rest⟩
  · rw [hbs] at hbl
    exact absurd hbl (by simp)
  rcases rest with _ | ⟨b2, r⟩
  · have hblt : b < st.blocks.length := hg.stackLt b (by rw [hbs]; exact List.mem_cons_self ..)
    obtain ⟨bb0, hbb0⟩ : ∃ bb0, st.blocks[b]? = some bb0 :=
      ⟨st.blocks[b], List.getElem?_eq_getElem hblt⟩
    have hempty : bb0.terms = [] :=
      (hg.terms b bb0 hbb0).1.mpr (by rw [hbs]; exact List.mem_cons_self ..)
    have hfin : finalize st = .ok ⟨addTerm st.blocks b .ret⟩ := by
      simp only [finalize, hbs]
    have hcomp : compile_bf p = .ok ⟨addTerm st.blocks b .ret⟩ := by
      simp only [compile_bf]
      rw [show scan p = .ok st from hscan]
      exact hfin
    refine ⟨st, b, { bb0 with terms := bb0.terms ++ [BTerm.ret] },
      ⟨addTerm st.blocks b .ret⟩, hscan, hbs, hcomp, ?_, ?_⟩
    · show (addTerm st.blocks b BTerm.ret)[b]? = _
      rw [addTerm, updateAt_getElem?_self, hbb0]
      rfl
    · show bb0.terms ++ [BTerm.ret] = [BTerm.ret]
      rw [hempty]
      rfl
  · rw [hbs] at hbl
    simp at hbl

/-- Witness for C1 at the concrete balanced program of one open and one close
bracket. -/
theorem claim1_witness :
    ∃ st b bb m, scan ['[', ']'] = .ok st ∧ st.blockStack = [b] ∧
      compile_bf ['[', ']'] = .ok m ∧ m.blocks[b]? = some bb ∧
      bb.terms = [BTerm.ret] :=
  claim1 ['[', ']'] (by decide)

/-- C7: whenever the scan reaches a state (after any program prefix), the loop
stack is exactly one shorter than the block stack, its length is the current
bracket-nesting depth of the consumed text, and its top element is the header
block of the innermost open loop: the block a close bracket processed now
branches back to on a nonzero cell. -/
theorem claim7 (q : List Char) (st : BfState) (h : scan q = .ok st) :
    st.blockStack.length = st.loopStack.length + 1 ∧
    scanDepth q 0 = some st.loopStack.length ∧
    (∀ l ls, st.loopStack = l :: ls →
      ∃ cur tailB rest st' bb, st.blockStack = cur :: tailB :: rest ∧
        step st ']' = .ok st' ∧ st'.blocks[cur]? = some bb ∧
        bb.terms = [BTerm.cbr l tailB]) := by
  have hg := scan_good q st h
  refine ⟨hg.stackLen, scanDepth_of_scanFrom q initState st good_init h, ?_⟩
  intro l ls hls
  have hslen := hg.stackLen
  rw [hls] at hslen
  rcases hbs : st.blockStack with _ | ⟨cur, rest0⟩
  · rw [hbs] at hslen
    simp at hslen
  rcases rest0 with _ | ⟨tailB, r⟩
  · rw [hbs] at hslen
    simp at hslen
  have hstep := step_close_ok st cur tailB r l ls hbs hls
  have hcur : cur < st.blocks.length := hg.stackLt cur (by rw [hbs]; exact List.mem_cons_self ..)
  obtain ⟨bb0, hbb0⟩ : ∃ bb0, st.blocks[cur]? = some bb0 :=
    ⟨st.blocks[cur], List.getElem?_eq_getElem hcur⟩
  have hempty : bb0.terms = [] :=
    (hg.terms cur bb0 hbb0).1.mpr (by rw [hbs]; exact List.mem_cons_self ..)
  refine ⟨cur, tailB, r, _, { bb0 with terms := bb0.terms ++ [BTerm.cbr l tailB] },
    rfl, hstep, ?_, ?_⟩
  · show (addTerm st.blocks cur (BTerm.cbr l tailB))[cur]? = _
    rw [addTerm, updateAt_getElem?_self, hbb0]
    rfl
  · show bb0.terms ++ [BTerm.cbr l tailB] = [BTerm.cbr l tailB]
    rw [hempty]
    rfl

/-- Witness for C7 at the one-character program of a single open bracket and the
concrete state its scan reaches. -/
theorem claim7_witness :
    stateAfterOpenBracket.blockStack.length = stateAfterOpenBracket.loopStack.length + 1 ∧
    scanDepth ['['] 0 = some stateAfterOpenBracket.loopStack.length :=
  ⟨(claim7 ['['] stateAfterOpenBracket rfl).1, (claim7 ['['] stateAfterOpenBracket rfl).2.1⟩

/-- C10: on every successful compilation each created basic block carries
exactly one terminator: one block ends in the void return and every other block
ends in a single conditional branch (on the current cell being nonzero, per the
semantics of `BTerm.cbr`), so the emitted function is well-formed IR. -/
theorem claim10 (p : List Char) (m : BfModule) (h : compile_bf p = .ok m) :
    (∀ i : Nat, i < m.blocks.length → ∃ bb, m.blocks[i]? = some bb ∧ bb.terms.length = 1) ∧
    (∃ (r : Nat) (bbr : BasicBlock), m.blocks[r]? = some bbr ∧ bbr.terms = [BTerm.ret] ∧
      ∀ (j : Nat) (bbj : BasicBlock), m.blocks[j]? = some bbj → j ≠ r →
        ∃ x y, bbj.terms = [BTerm.cbr x y]) := by
  cases hscan : scan p with
  | error e =>
    simp only [compile_bf, hscan] at h
    exact Except.noConfusion h
  | ok st =>
    simp only [compile_bf, hscan] at h
    have hg := scan_good p st hscan
    rcases hbs : st.blockStack with _ | ⟨r0, rest0⟩
    · simp only [finalize, hbs] at h
      exact Except.noConfusion h
    rcases rest0 with _ | ⟨r1, rr⟩
    · simp only [finalize, hbs] at h
      obtain rfl := Except.ok.inj h
      have hcur : r0 < st.blocks.length :=
        hg.stackLt r0 (by rw [hbs]; exact List.mem_cons_self ..)
      obtain ⟨bb0, hbb0⟩ : ∃ bb0, st.blocks[r0]? = some bb0 :=
        ⟨st.blocks[r0], List.getElem?_eq_getElem hcur⟩
      have hempty : bb0.terms = [] :=
        (hg.terms r0 bb0 hbb0).1.mpr (by rw [hbs]; exact List.mem_cons_self ..)
      have hlen : (⟨addTerm st.blocks r0 BTerm.ret⟩ : BfModule).blocks.length =
          st.blocks.length := length_addTerm ..
      constructor
      · intro i hi
        by_cases hir : r0 = i
        · subst hir
          refine ⟨{ bb0 with terms := bb0.terms ++ [BTerm.ret] }, ?_, ?_⟩
          · show (addTerm st.blocks r0 BTerm.ret)[r0]? = _
            rw [addTerm, updateAt_getElem?_self, hbb0]
            rfl
          · show (bb0.terms ++ [BTerm.ret]).length = 1
            rw [hempty]
            rfl
        · rw [hlen] at hi
          have hget : (addTerm st.blocks r0 BTerm.ret)[i]? = st.blocks[i]? :=
            updateAt_getElem?_ne _ _ _ _ hir
          obtain ⟨bbi, hbbi⟩ : ∃ bbi, st.blocks[i]? = some bbi :=
            ⟨st.blocks[i], List.getElem?_eq_getElem hi⟩
          have hnot : i ∉ st.blockStack := by
            rw [hbs]
            intro hmem
            rcases List.mem_cons.mp hmem with heq | hmem2
            · exact hir heq.symm
            · simp at hmem2
          obtain ⟨x, y, hxy⟩ := (hg.terms i bbi hbbi).2 hnot
          refine ⟨bbi, ?_, ?_⟩
          · show (addTerm st.blocks r0 BTerm.ret)[i]? = some bbi
            rw [hget, hbbi]
          · rw [hxy]
            rfl
      · refine ⟨r0, { bb0 with terms := bb0.terms ++ [BTerm.ret] }, ?_, ?_, ?_⟩
        · show (addTerm st.blocks r0 BTerm.ret)[r0]? = _
          rw [addTerm, updateAt_getElem?_self, hbb0]
          rfl
        · show bb0.terms ++ [BTerm.ret] = [BTerm.ret]
          rw [hempty]
          rfl
        · intro j bbj hbbj hne
          have hget : (addTerm st.blocks r0 BTerm.ret)[j]? = st.blocks[j]? :=
            updateAt_getElem?_ne _ _ _ _ (fun hh => hne hh.symm)
          rw [hget] at hbbj
          have hnot : j ∉ st.blockStack := by
            rw [hbs]
            intro hmem
            rcases List.mem_cons.mp hmem with heq | hmem2
            · exact hne heq
            · simp at hmem2
          exact (hg.terms j bbj hbbj).2 hnot
    · simp only [finalize, hbs] at h
      exact Except.noConfusion h

/-- Witness for C10: the empty program compiles to a single block holding
exactly the void-return terminator. -/
theorem claim10_witness :
    (∀ i : Nat, i < (BfModule.mk [⟨[], [BTerm.ret]⟩]).blocks.length →
      ∃ bb, (BfModule.mk [⟨[], [BTerm.ret]⟩]).blocks[i]? = some bb ∧ bb.terms.length = 1) ∧
    (∃ (r : Nat) (bbr : BasicBlock), (BfModule.mk [⟨[], [BTerm.ret]⟩]).blocks[r]? = some bbr ∧
      bbr.terms = [BTerm.ret] ∧
      ∀ (j : Nat) (bbj : BasicBlock), (BfModule.mk [⟨[], [BTerm.ret]⟩]).blocks[j]? = some bbj →
        j ≠ r → ∃ x y, bbj.terms = [BTerm.cbr x y]) :=
  claim10 [] (BfModule.mk [⟨[], [BTerm.ret]⟩]) rfl

/-! ## Comment-insertion machinery for C8 -/

theorem sameKind_refl (e : CompileError) : sameKind e e := by
  cases e <;> trivial

theorem compile_eq_scanFrom (prog : List Char) :
    compile_bf prog =
      (match scanFrom initState prog with
       | .ok st => finalize st
       | .error e => .error e) := rfl

theorem emitOp_stEqv (s s' : BfState) (op : Op) (hb : s.blocks = s'.blocks)
    (hbs : s.blockStack = s'.blockStack) (hls : s.loopStack = s'.loopStack) :
    stEqv (emitOp s op) (emitOp s' op) := by
  rcases h : s.blockStack with _ | ⟨cur, rest⟩
  · have h' : s'.blockStack = [] := by rw [← hbs]; exact h
    refine ⟨?_, ?_, ?_⟩ <;> simp [emitOp, h, h', hb, hbs, hls]
  · have h' : s'.blockStack = cur :: rest := by rw [← hbs]; exact h
    refine ⟨?_, ?_, ?_⟩ <;> simp [emitOp, h, h', hb, hbs, hls]

theorem step_stEqv (s s' : BfState) (ch : Char) (he : stEqv s s') :
    (∃ t t', step s ch = .ok t ∧ step s' ch = .ok t' ∧ stEqv t t') ∨
    (∃ e e', step s ch = .error e ∧ step s' ch = .error e' ∧ sameKind e e') := by
  obtain ⟨hb, hbs, hls⟩ := he
  by_cases c1 : ch = '\n'
  · subst c1
    rw [step_newline, step_newline]
    exact .inl ⟨_, _, rfl, rfl, hb, hbs, hls⟩
  by_cases c2 : ch = '.'
  · subst c2
    rw [step_dot, step_dot]
    exact .inl ⟨_, _, rfl, rfl, emitOp_stEqv _ _ _ hb hbs hls⟩
  by_cases c3 : ch = ','
  · subst c3
    rw [step_comma, step_comma]
    exact .inl ⟨_, _, rfl, rfl, emitOp_stEqv _ _ _ hb hbs hls⟩
  by_cases c4 : ch = '>'
  · subst c4
    rw [step_right, step_right]
    exact .inl ⟨_, _, rfl, rfl, emitOp_stEqv _ _ _ hb hbs hls⟩
  by_cases c5 : ch = '<'
  · subst c5
    rw [step_left, step_left]
    exact .inl ⟨_, _, rfl, rfl, emitOp_stEqv _ _ _ hb hbs hls⟩
  by_cases c6 : ch = '+'
  · subst c6
    rw [step_plus, step_plus]
    exact .inl ⟨_, _, rfl, rfl, emitOp_stEqv _ _ _ hb hbs hls⟩
  by_cases c7 : ch = '-'
  · subst c7
    rw [step_minus, step_minus]
    exact .inl ⟨_, _, rfl, rfl, emitOp_stEqv _ _ _ hb hbs hls⟩
  by_cases c8 : ch = '['
  · subst c8
    rw [step_open, step_open]
    rcases h : s.blockStack with _ | ⟨cur, rest⟩
    · have h' : s'.blockStack = [] := by rw [← hbs]; exact h
      simp only [h']
      exact .inr ⟨.indexError, .indexError, rfl, rfl, trivial⟩
    · have h' : s'.blockStack = cur :: rest := by rw [← hbs]; exact h
      simp only [h']
      refine .inl ⟨_, _, rfl, rfl, ?_, ?_, ?_⟩
      · show addTerm (s.blocks ++ [BasicBlock.empty, BasicBlock.empty]) cur
            (BTerm.cbr s.blocks.length (s.blocks.length + 1)) = _
        rw [hb]
      · show s.blocks.length :: (s.blocks.length + 1) :: rest = _
        rw [hb]
      · show s.blocks.length :: s.loopStack = _
        rw [hb, hls]
  by_cases c9 : ch = ']'
  · subst c9
    rw [step_close, step_close]
    by_cases hle : s.blockStack.length ≤ 1
    · have hle' : s'.blockStack.length ≤ 1 := by rw [← hbs]; exact hle
      rw [if_pos hle, if_pos hle']
      exact .inr ⟨_, _, rfl, rfl, trivial⟩
    · have hle' : ¬s'.blockStack.length ≤ 1 := by rw [← hbs]; exact hle
      rw [if_neg hle, if_neg hle']
      rcases h : s.blockStack with _ | ⟨cur, rest0⟩
      · rw [h] at hle
        simp at hle
      rcases rest0 with _ | ⟨tailB, rest⟩
      · rw [h] at hle
        simp at hle
      have h' : s'.blockStack = cur :: tailB :: rest := by rw [← hbs]; exact h
      rcases h2 : s.loopStack with _ | ⟨l, ls⟩
      · have h2' : s'.loopStack = [] := by rw [← hls]; exact h2
        simp only [h', h2']
        exact .inr ⟨.indexError, .indexError, rfl, rfl, trivial⟩
      · have h2' : s'.loopStack = l :: ls := by rw [← hls]; exact h2
        simp only [h', h2']
        refine .inl ⟨_, _, rfl, rfl, ?_, rfl, rfl⟩
        show addTerm s.blocks cur (BTerm.cbr l tailB) = _
        rw [hb]
  -- comment character
  have hinstr : isInstrChar ch = false := by
    simp only [isInstrChar, Bool.or_eq_false_iff, decide_eq_false_iff_not]
    exact ⟨⟨⟨⟨⟨⟨⟨c4, c5⟩, c6⟩, c7⟩, c2⟩, c3⟩, c8⟩, c9⟩
  rw [step_comment s ch hinstr c1, step_comment s' ch hinstr c1]
  exact .inl ⟨_, _, rfl, rfl, hb, hbs, hls⟩

theorem scanFrom_stEqv (cs : List Char) (s s' : BfState) (he : stEqv s s') :
    (∃ t t', scanFrom s cs = .ok t ∧ scanFrom s' cs = .ok t' ∧ stEqv t t') ∨
    (∃ e e', scanFrom s cs = .error e ∧ scanFrom s' cs = .error e' ∧ sameKind e e') := by
  induction cs generalizing s s' with
  | nil => exact .inl ⟨s, s', rfl, rfl, he⟩
  | cons ch rest ih =>
    rcases step_stEqv s s' ch he with ⟨t, t', h1, h2, ht⟩ | ⟨e, e', h1, h2, hs⟩
    · rw [scanFrom_cons, scanFrom_cons]
      simp only [h1, h2]
      exact ih t t' ht
    · rw [scanFrom_cons, scanFrom_cons]
      simp only [h1, h2]
      exact .inr ⟨e, e', rfl, rfl, hs⟩

theorem finalize_resultEqv (s s' : BfState) (he : stEqv s s') :
    resultEqv (finalize s) (finalize s') := by
  obtain ⟨hb, hbs, hls⟩ := he
  rcases h : s.blockStack with _ | ⟨cur, rest0⟩
  · have h' : s'.blockStack = [] := by rw [← hbs]; exact h
    simp only [finalize, h, h']
    trivial
  rcases rest0 with _ | ⟨x, xs⟩
  · have h' : s'.blockStack = [cur] := by rw [← hbs]; exact h
    simp only [finalize, h, h']
    show BfModule.mk (addTerm s.blocks cur BTerm.ret) = BfModule.mk (addTerm s'.blocks cur BTerm.ret)
    rw [hb]
  · have h' : s'.blockStack = cur :: x :: xs := by rw [← hbs]; exact h
    simp only [finalize, h, h']
    trivial

/-- C8: characters outside the eight instruction characters are skipped and can
never cause a compilation error (the scan step succeeds and leaves the blocks
and both stacks untouched); inserting such a comment character anywhere in a
program leaves a successful compilation's module literally unchanged and can
change a failing compilation's error only in its reported position, never its
kind.  Read right to left, the same statement covers removing a comment
character. -/
theorem claim8 :
    (∀ (st : BfState) (ch : Char), isInstrChar ch = false →
      ∃ st', step st ch = .ok st' ∧ st'.blocks = st.blocks ∧
        st'.blockStack = st.blockStack ∧ st'.loopStack = st.loopStack) ∧
    (∀ (p q : List Char) (ch : Char), isInstrChar ch = false →
      resultEqv (compile_bf (p ++ ch :: q)) (compile_bf (p ++ q))) := by
  have part1 : ∀ (st : BfState) (ch : Char), isInstrChar ch = false →
      ∃ st', step st ch = .ok st' ∧ st'.blocks = st.blocks ∧
        st'.blockStack = st.blockStack ∧ st'.loopStack = st.loopStack := by
    intro st ch hch
    by_cases hn : ch = '\n'
    · subst hn
      exact ⟨_, step_newline st, rfl, rfl, rfl⟩
    · exact ⟨_, step_comment st ch hch hn, rfl, rfl, rfl⟩
  refine ⟨part1, ?_⟩
  intro p q ch hch
  rw [compile_eq_scanFrom, compile_eq_scanFrom, scanFrom_append initState p (ch :: q),
    scanFrom_append initState p q]
  cases hP : scanFrom initState p with
  | error e =>
    simp only [hP]
    exact sameKind_refl e
  | ok st =>
    simp only [hP]
    obtain ⟨st1, hstep, hb1, hbs1, hls1⟩ := part1 st ch hch
    rw [scanFrom_cons]
    simp only [hstep]
    rcases scanFrom_stEqv q st1 st ⟨hb1, hbs1, hls1⟩ with ⟨t, t', h1, h2, ht⟩ | ⟨e, e', h1, h2, hs⟩
    · simp only [h1, h2]
      exact finalize_resultEqv t t' ht
    · simp only [h1, h2]
      exact hs

/-- Witness for C8: stepping on a space leaves the initial state's blocks and
stacks unchanged, and inserting a space between a plus and a minus yields the
identical compiled module. -/
theorem claim8_witness :
    (∃ st', step initState ' ' = .ok st' ∧ st'.blocks = initState.blocks ∧
      st'.blockStack = initState.blockStack ∧ st'.loopStack = initState.loopStack) ∧
    resultEqv (compile_bf ['+', ' ', '-']) (compile_bf ['+', '-']) :=
  ⟨claim8.1 initState ' ' (by decide), claim8.2 ['+'] ['-'] ' ' (by decide)⟩

end LlvmBf
